import Mathlib

/-!
# procon: a two-thread producer/consumer ring of `n_buffers` slots

A shallow embedding of `procon` (src/procon.h) as an interleaving step machine.
The producer worker (the lambda of lines 68-101) and the consumer driver (lines
104-154) are two sequential programs; every access to a shared object (the two
counting semaphores, `ex_ptr`, `buffer_lengths`, `producer_done`,
`stop_requested`) is one atomic step, and a schedule is a list of thread
identifiers.  A blocked semaphore acquire and a `join` on a running worker are
steps that are not enabled.  The interleaving is sequentially consistent: a
step sees every write of the steps before it; the C++ memory model is not part
of the embedding (the write of `ex_ptr` at line 81 and its read at line 110 are
two steps like any other).

The callbacks are black boxes: `pro_cb k` is the outcome of the invocation of
the produce callback that follows `k` earlier invocations, `con_cb j` the same
for the consume callback.  What the callbacks receive is recorded in two
history lists, which no step of the program reads.

The file has two parts: the definitions (the machine, the bookkeeping functions
of the invariant, the concrete runs), then the theorems (the inductive
invariant in three layers, progress, termination, and the properties of the
specification).
-/

set_option linter.unusedTactic false
set_option linter.unreachableTactic false
set_option linter.unnecessarySeqFocus false
set_option linter.unusedVariables false

namespace Procon

/-! ## Part 1: definitions -/

/-- Address of a buffer (a `void*`). -/
abbrev Addr := Nat

/-- Identity of an exception object (what a non-null `std::exception_ptr` refers to). -/
abbrev Fault := Nat

/-- Outcome of one invocation of the produce callback `pro_cb(buffer, buffer_size)`. -/
inductive ProOutcome
  | ret (len : Nat)
  | raise (e : Fault)
deriving DecidableEq, Repr

/-- Outcome of one invocation of the consume callback `con_cb(buffer, read_len)`. -/
inductive ConOutcome
  | ret
  | raise (e : Fault)
deriving DecidableEq, Repr

/-- The length a produce invocation returned (0 when it raised). -/
def ProOutcome.len : ProOutcome → Nat
  | .ret l => l
  | .raise _ => 0

/-- The arguments of a call of `procon<n_buffers>(pro_cb, con_cb, buffer_size, ext_buffers...)`.
`buffers i` is the address placed in `buffers[i]` at lines 47-56, either the
`i`-th external buffer or the result of the `i`-th `allocator.allocate`. -/
structure Config where
  n_buffers : Nat
  buffer_size : Nat
  buffers : Nat → Addr
  pro_cb : Nat → ProOutcome
  con_cb : Nat → ConOutcome

/-- Program counter of the producer worker (lines 68-101). -/
inductive PPc
  /-- line 71, `n_empty_sem.acquire()` -/
  | acquire
  /-- line 72, `if (stop_requested.load())` -/
  | check_stop
  /-- line 73, `producer_done = true` on the stop path -/
  | set_done_stop
  /-- lines 76-79, about to invoke `pro_cb(buffer, buffer_size)` -/
  | call
  /-- inside `pro_cb` -/
  | in_call
  /-- line 81, `ex_ptr = std::current_exception()` -/
  | catch_
  /-- line 83, `n_filled_sem.release()` after a fault -/
  | fault_release
  /-- lines 87-92, `buffer_lengths[next_buffer_idx] = buffer_len`, advance, branch -/
  | store
  /-- line 94, `producer_done = true` on end of stream -/
  | set_done_eof
  /-- line 95, `n_filled_sem.release()` on end of stream -/
  | eof_release
  /-- line 98, `n_filled_sem.release()` -/
  | release
  /-- returned at line 74 -/
  | ret_stop
  /-- returned at line 84 -/
  | ret_fault
  /-- returned at line 96 -/
  | ret_eof
deriving DecidableEq, Repr

/-- Program counter of the consumer driver (lines 104-154). -/
inductive CPc
  /-- line 108, `n_filled_sem.acquire()` -/
  | acquire
  /-- lines 110-112, `if (ex_ptr) rethrow` -/
  | check_ex
  /-- lines 114-120, read `buffers[idx]`, `buffer_lengths[idx]`, test for 0 -/
  | read_len
  /-- line 122, about to invoke `con_cb(buffer, read_len)` -/
  | call
  /-- inside `con_cb` -/
  | in_call
  /-- lines 124-125, advance `consumer_buffer_idx`, `n_empty_sem.release()` -/
  | release
  /-- line 135, `stop_requested = true` -/
  | set_stop
  /-- line 136, `n_empty_sem.release()` -/
  | final_release
  /-- line 138, `producer_thread.join()` -/
  | join
  /-- after lines 142-154: `procon` has returned or rethrown `consumer_exception` -/
  | returned
deriving DecidableEq, Repr

/-- History record of one produce invocation: the slot, the arguments, and how
many consume invocations had returned when it began. -/
structure ProCall where
  slot : Nat
  buffer : Addr
  max_size : Nat
  con_returned : Nat
deriving DecidableEq, Repr

/-- History record of one consume invocation: the slot, the arguments, and how
many produce invocations had returned when it began. -/
structure ConCall where
  slot : Nat
  buffer : Addr
  len : Nat
  pro_returned : Nat
deriving DecidableEq, Repr

/-- The variables of one run of `procon`, the two program counters, and the history. -/
structure State where
  /-- line 45, `std::array<void*, n_buffers> buffers` -/
  buffers : Nat → Addr
  /-- line 59 -/
  n_filled_sem : Nat
  /-- line 60 -/
  n_empty_sem : Nat
  /-- line 61 -/
  ex_ptr : Option Fault
  /-- line 63 -/
  buffer_lengths : Nat → Nat
  /-- line 64 -/
  producer_done : Bool
  /-- line 65 -/
  stop_requested : Bool
  pro : PPc
  /-- line 69 -/
  next_buffer_idx : Nat
  /-- line 77 -/
  buffer_len : Nat
  /-- the exception in flight in the worker, `std::current_exception()` at line 81 -/
  caught : Option Fault
  con : CPc
  /-- line 105 -/
  consumer_buffer_idx : Nat
  /-- line 115 -/
  read_len : Nat
  /-- line 104 -/
  consumer_exception : Option Fault
  /-- history: the produce invocations begun so far -/
  pro_log : List ProCall
  /-- history: number of produce invocations that have returned a length -/
  pro_returned : Nat
  /-- history: the consume invocations begun so far -/
  con_log : List ConCall
  /-- history: number of consume invocations that have returned -/
  con_returned : Nat

/-- State after lines 44-65 and the start of the worker thread. -/
def init (cfg : Config) : State where
  buffers := cfg.buffers
  n_filled_sem := 0
  n_empty_sem := cfg.n_buffers
  ex_ptr := none
  buffer_lengths := fun _ => 0
  producer_done := false
  stop_requested := false
  pro := .acquire
  next_buffer_idx := 0
  buffer_len := 0
  caught := none
  con := .acquire
  consumer_buffer_idx := 0
  read_len := 0
  consumer_exception := none
  pro_log := []
  pro_returned := 0
  con_log := []
  con_returned := 0

/-- The worker has executed one of its three `return` statements. -/
def PPc.terminated : PPc → Bool
  | .ret_stop => true
  | .ret_fault => true
  | .ret_eof => true
  | _ => false

/-- One step of the producer worker; `none` when it is blocked or has returned. -/
def stepProducer (cfg : Config) (s : State) : Option State :=
  match s.pro with
  | .acquire =>
    if 0 < s.n_empty_sem then
      some { s with n_empty_sem := s.n_empty_sem - 1, pro := .check_stop }
    else none
  | .check_stop =>
    if s.stop_requested then some { s with pro := .set_done_stop }
    else some { s with pro := .call }
  | .set_done_stop => some { s with producer_done := true, pro := .ret_stop }
  | .call =>
    some { s with
      buffer_len := 0
      pro_log := s.pro_log ++
        [⟨s.next_buffer_idx, s.buffers s.next_buffer_idx, cfg.buffer_size, s.con_returned⟩]
      pro := .in_call }
  | .in_call =>
    match cfg.pro_cb s.pro_returned with
    | .ret len =>
      some { s with buffer_len := len, pro_returned := s.pro_returned + 1, pro := .store }
    | .raise e => some { s with caught := some e, pro := .catch_ }
  | .catch_ => some { s with ex_ptr := s.caught, pro := .fault_release }
  | .fault_release => some { s with n_filled_sem := s.n_filled_sem + 1, pro := .ret_fault }
  | .store =>
    some { s with
      buffer_lengths := Function.update s.buffer_lengths s.next_buffer_idx s.buffer_len
      next_buffer_idx := (s.next_buffer_idx + 1) % cfg.n_buffers
      pro := if s.buffer_len = 0 then .set_done_eof else .release }
  | .set_done_eof => some { s with producer_done := true, pro := .eof_release }
  | .eof_release => some { s with n_filled_sem := s.n_filled_sem + 1, pro := .ret_eof }
  | .release => some { s with n_filled_sem := s.n_filled_sem + 1, pro := .acquire }
  | .ret_stop => none
  | .ret_fault => none
  | .ret_eof => none

/-- One step of the consumer driver; `none` when it is blocked or `procon` has returned. -/
def stepConsumer (cfg : Config) (s : State) : Option State :=
  match s.con with
  | .acquire =>
    if 0 < s.n_filled_sem then
      some { s with n_filled_sem := s.n_filled_sem - 1, con := .check_ex }
    else none
  | .check_ex =>
    match s.ex_ptr with
    | some e => some { s with consumer_exception := some e, con := .set_stop }
    | none => some { s with con := .read_len }
  | .read_len =>
    some { s with
      read_len := s.buffer_lengths s.consumer_buffer_idx
      con := if s.buffer_lengths s.consumer_buffer_idx = 0 then .set_stop else .call }
  | .call =>
    some { s with
      con_log := s.con_log ++
        [⟨s.consumer_buffer_idx, s.buffers s.consumer_buffer_idx, s.read_len, s.pro_returned⟩]
      con := .in_call }
  | .in_call =>
    match cfg.con_cb s.con_returned with
    | .ret => some { s with con_returned := s.con_returned + 1, con := .release }
    | .raise e => some { s with consumer_exception := some e, con := .set_stop }
  | .release =>
    some { s with
      consumer_buffer_idx := (s.consumer_buffer_idx + 1) % cfg.n_buffers
      n_empty_sem := s.n_empty_sem + 1
      con := .acquire }
  | .set_stop => some { s with stop_requested := true, con := .final_release }
  | .final_release => some { s with n_empty_sem := s.n_empty_sem + 1, con := .join }
  | .join => if s.pro.terminated then some { s with con := .returned } else none
  | .returned => none

/-- The two threads. -/
inductive Tid
  | producer
  | consumer
deriving DecidableEq, Repr

/-- One step of the thread the scheduler picked. -/
def step (cfg : Config) : Tid → State → Option State
  | .producer, s => stepProducer cfg s
  | .consumer, s => stepConsumer cfg s

/-- Run a schedule; `none` when the schedule picks a thread that has no enabled step. -/
def exec (cfg : Config) : List Tid → State → Option State
  | [], s => some s
  | t :: ts, s => (step cfg t s).bind (exec cfg ts)

/-- The states some interleaving of the two threads reaches from the initial state. -/
def Reachable (cfg : Config) (s : State) : Prop :=
  ∃ sched, exec cfg sched (init cfg) = some s

/-- What `procon` surfaces to its caller once it has returned: the fault that is
rethrown at line 153, or `none` for a normal return. -/
def surfaced (s : State) : Option Fault := s.consumer_exception

/-- 1 when the worker has taken a token of `n_empty_sem` that it has not turned
into a token of `n_filled_sem` (a worker that returned at line 74 keeps its token). -/
def PPc.holds : PPc → Nat
  | .acquire => 0
  | .ret_fault => 0
  | .ret_eof => 0
  | _ => 1

/-- 1 when the driver has taken a token of `n_filled_sem` that it has not given
back to `n_empty_sem`. -/
def CPc.holds : CPc → Nat
  | .acquire => 0
  | .join => 0
  | .returned => 0
  | _ => 1

/-- 1 when the driver has acquired `n_filled_sem` once more than consume has returned. -/
def CPc.acquired : CPc → Nat
  | .acquire => 0
  | .release => 0
  | _ => 1

/-- 1 when the last produce invocation has returned and its release of
`n_filled_sem` is still to come. -/
def PPc.unpublished : PPc → Nat
  | .store => 1
  | .set_done_eof => 1
  | .eof_release => 1
  | .release => 1
  | _ => 0

/-- 1 when the worker has released `n_filled_sem` at line 83. -/
def PPc.faulted : PPc → Nat
  | .ret_fault => 1
  | _ => 0

/-- 1 when the last produce invocation began and has not returned a length. -/
def PPc.pending : PPc → Nat
  | .in_call => 1
  | .catch_ => 1
  | .fault_release => 1
  | .ret_fault => 1
  | _ => 0

/-- 1 at line 87, before the returned length is stored. -/
def PPc.storing : PPc → Nat
  | .store => 1
  | _ => 0

/-- 1 when the last returned length is not known to be positive. -/
def PPc.last_open : PPc → Nat
  | .store => 1
  | .set_done_eof => 1
  | .eof_release => 1
  | .ret_eof => 1
  | _ => 0

/-- 1 when consume has returned and the slot is not yet released. -/
def CPc.releasing : CPc → Nat
  | .release => 1
  | _ => 0

/-- The driver is inside its `while (true)` loop (lines 107-126). -/
def CPc.in_loop : CPc → Bool
  | .acquire => true
  | .check_ex => true
  | .read_len => true
  | .call => true
  | .in_call => true
  | .release => true
  | _ => false

/-- The worker is inside `pro_cb` on its slot or about to write the slot's length. -/
def PPc.touching : PPc → Bool
  | .call => true
  | .in_call => true
  | .store => true
  | _ => false

/-- The driver is between reading the slot's length and releasing the slot. -/
def CPc.touching : CPc → Bool
  | .read_len => true
  | .call => true
  | .in_call => true
  | .release => true
  | _ => false

/-- The produce outcome is a positive length. -/
def ProOutcome.positive (o : ProOutcome) : Prop := 0 < o.len

instance (o : ProOutcome) : Decidable o.positive := by
  unfold ProOutcome.positive; infer_instance

/-- Layer 1: token accounting, counters, flags and indices. -/
structure Core (cfg : Config) (s : State) : Prop where
  tokens : s.n_empty_sem + s.n_filled_sem + s.pro.holds + s.con.holds = cfg.n_buffers
  filled : s.n_filled_sem + s.con_returned + s.con.acquired + s.pro.unpublished
    = s.pro_returned + s.pro.faulted
  pro_calls : s.pro_log.length = s.pro_returned + s.pro.pending
  stop_iff : s.stop_requested = true ↔
    (s.con = .final_release ∨ s.con = .join ∨ s.con = .returned)
  stop_path : (s.pro = .set_done_stop ∨ s.pro = .ret_stop) → s.stop_requested = true
  final_token : (s.con = .join ∨ s.con = .returned) →
    1 ≤ s.n_empty_sem ∨ s.pro = .check_stop ∨ s.pro = .set_done_stop ∨ s.pro = .ret_stop
  joined : s.con = .returned → s.pro.terminated = true
  open_pos : s.pro.last_open ≤ s.pro_returned
  release_pos : s.con = .release → 1 ≤ s.con_returned
  next_idx : s.next_buffer_idx = (s.pro_returned - s.pro.storing) % cfg.n_buffers
  con_idx : s.con.in_loop = true →
    s.consumer_buffer_idx = (s.con_returned - s.con.releasing) % cfg.n_buffers
  ex_none : s.ex_ptr = none ↔ (s.pro ≠ .fault_release ∧ s.pro ≠ .ret_fault)
  caught_some : s.pro = .catch_ → s.caught ≠ none
  con_exc_none : s.con.in_loop = true → s.consumer_exception = none
  done_iff : s.producer_done = true ↔
    (s.pro = .ret_stop ∨ s.pro = .eof_release ∨ s.pro = .ret_eof)
  buffers_eq : s.buffers = cfg.buffers

/-- Layer 2: what the callbacks returned, and what the length array holds. -/
structure Data (cfg : Config) (s : State) : Prop where
  rets : ∀ k, k < s.pro_returned → ∃ l, cfg.pro_cb k = .ret l
  positives : ∀ k, k + s.pro.last_open < s.pro_returned → (cfg.pro_cb k).positive
  stored_len : s.pro = .store → cfg.pro_cb (s.pro_returned - 1) = .ret s.buffer_len
  eof_len : (s.pro = .set_done_eof ∨ s.pro = .eof_release ∨ s.pro = .ret_eof) →
    cfg.pro_cb (s.pro_returned - 1) = .ret 0
  caught_eq : s.pro = .catch_ → ∀ e, s.caught = some e → cfg.pro_cb s.pro_returned = .raise e
  ex_eq : ∀ e, s.ex_ptr = some e → cfg.pro_cb s.pro_returned = .raise e
  consumed : ∀ j, j < s.con_returned → cfg.con_cb j = .ret ∧ (cfg.pro_cb j).positive
  published : s.con.touching = true →
    s.con_returned + 1 + s.pro.unpublished ≤ s.pro_returned + s.con.releasing
  lengths : ∀ k, s.con_returned ≤ k + s.con.releasing → k + s.pro.storing < s.pro_returned →
    s.buffer_lengths (k % cfg.n_buffers) = (cfg.pro_cb k).len
  read_eq : (s.con = .call ∨ s.con = .in_call) →
    s.read_len = (cfg.pro_cb s.con_returned).len ∧ 0 < s.read_len
  con_calls : s.con.in_loop = true →
    s.con_log.length = s.con_returned + (if s.con = .in_call then 1 else 0)
  exit_reason : s.con.in_loop = false →
    (s.consumer_exception = none ∧ s.con_log.length = s.con_returned ∧
      s.con_returned < s.pro_returned ∧ cfg.pro_cb s.con_returned = .ret 0 ∧
      s.consumer_buffer_idx = s.con_returned % cfg.n_buffers)
    ∨ (∃ e, s.consumer_exception = some e ∧ s.ex_ptr = some e ∧
      s.con_log.length = s.con_returned)
    ∨ (∃ e, s.consumer_exception = some e ∧ cfg.con_cb s.con_returned = .raise e ∧
      s.con_log.length = s.con_returned + 1)

/-- Layer 3: what the two history lists record. -/
structure Logs (cfg : Config) (s : State) : Prop where
  pro_entries : ∀ k e, s.pro_log[k]? = some e →
    e.slot = k % cfg.n_buffers ∧ e.buffer = cfg.buffers (k % cfg.n_buffers) ∧
    e.max_size = cfg.buffer_size ∧ k < cfg.n_buffers + e.con_returned
  con_entries : ∀ j e, s.con_log[j]? = some e →
    e.slot = j % cfg.n_buffers ∧ e.buffer = cfg.buffers (j % cfg.n_buffers) ∧
    e.len = (cfg.pro_cb j).len ∧ 0 < e.len ∧ j < e.pro_returned

/-- The inductive invariant of the step machine. -/
structure Inv (cfg : Config) (s : State) : Prop where
  core : Core cfg s
  data : Data cfg s
  logs : Logs cfg s

/-- Distance of the worker from the end of its current loop iteration. -/
def PPc.weight : PPc → Nat
  | .in_call => 9
  | .store => 8
  | .catch_ => 8
  | .set_done_eof => 7
  | .release => 7
  | .fault_release => 7
  | .eof_release => 6
  | .acquire => 6
  | .check_stop => 5
  | .call => 4
  | .set_done_stop => 4
  | .ret_stop => 0
  | .ret_fault => 0
  | .ret_eof => 0

/-- Distance of the driver from the end of its current loop iteration. -/
def CPc.weight : CPc → Nat
  | .in_call => 9
  | .release => 8
  | .acquire => 7
  | .check_ex => 6
  | .read_len => 5
  | .call => 4
  | .set_stop => 3
  | .final_release => 2
  | .join => 1
  | .returned => 0

/-- Number of steps left when the worker begins at most `P` produce invocations and
the driver at most `C` consume invocations. -/
def remaining (P C : Nat) (s : State) : Nat :=
  6 * (P - s.pro_log.length) + s.pro.weight + 6 * (C - s.con_log.length) + s.con.weight

/-- Bound on the length of a run with at most `P` produce and `C` consume invocations. -/
def stepBound (P C : Nat) : Nat := 6 * P + 6 * C + 13

/-- The slot the worker is filling, when it is at or inside `pro_cb` or at the store of
the returned length. -/
def proSlot (s : State) : Option Nat :=
  if s.pro.touching then some s.next_buffer_idx else none

/-- The slot the driver is draining, from the read of its length to its release. -/
def conSlot (s : State) : Option Nat :=
  if s.con.touching then some s.consumer_buffer_idx else none

/-- Number of fills made visible by a release of `n_filled_sem` at line 95 or 98. -/
def published (s : State) : Nat := s.pro_returned - s.pro.unpublished

/-- Number of slots the driver has given back by a release of `n_empty_sem` at line 125. -/
def released (s : State) : Nat := s.con_returned - s.con.releasing

/-- The state a schedule leads to (the initial state when the schedule is not executable). -/
def run (cfg : Config) (sched : List Tid) : State :=
  (exec cfg sched (init cfg)).getD (init cfg)

/-- Steps the two threads have left once the driver is in finalization and the worker
is on its way out through the stop check. -/
def windDown (s : State) : Nat :=
  (match s.con with
    | .set_stop => 3
    | .final_release => 2
    | .join => 1
    | _ => 0) +
  (match s.pro with
    | .acquire => 3
    | .check_stop => 2
    | .set_done_stop => 1
    | _ => 0)

/-- The states between the start of finalization with a blocked worker and the return. -/
structure Winding (s : State) : Prop where
  con_fin : s.con = .set_stop ∨ s.con = .final_release ∨ s.con = .join ∨ s.con = .returned
  pro_out : s.pro = .acquire ∨ s.pro = .check_stop ∨ s.pro = .set_done_stop ∨ s.pro = .ret_stop
  blocked : (s.con = .set_stop ∨ s.con = .final_release) → s.pro = .acquire ∧ s.n_empty_sem = 0
  stop_set : (s.con = .final_release ∨ s.con = .join ∨ s.con = .returned) →
    s.stop_requested = true
  joined : s.con = .returned → s.pro = .ret_stop

/-- The lengths the serial loop of src/main.cpp lines 60-66 hands to consume:
`len = producer(buf); if (len == 0) break; consumer(buf, len)`, starting at produce
invocation `k`, for at most `fuel` iterations. -/
def serialLoop (cfg : Config) : Nat → Nat → List Nat
  | 0, _ => []
  | fuel + 1, k =>
    match cfg.pro_cb k with
    | .raise _ => []
    | .ret len =>
      if len = 0 then []
      else
        match cfg.con_cb k with
        | .raise _ => [len]
        | .ret => len :: serialLoop cfg fuel (k + 1)

/-- Two slots; produce returns 1, 2, 3 and then 0; consume returns. -/
def cfgStream : Config where
  n_buffers := 2
  buffer_size := 8
  buffers := fun i => 100 + i
  pro_cb := fun k => if k < 3 then .ret (k + 1) else .ret 0
  con_cb := fun _ => .ret

/-- A complete run of `cfgStream` in which the worker always runs as far as it can. -/
def schedStream : List Tid :=
  List.replicate 12 .producer ++ List.replicate 6 .consumer ++ List.replicate 6 .producer ++
  List.replicate 6 .consumer ++ List.replicate 7 .producer ++ List.replicate 12 .consumer

/-- One slot; produce fills 512 bytes twice and raises fault 9 on its third invocation. -/
def cfgProFault : Config where
  n_buffers := 1
  buffer_size := 512
  buffers := fun i => 100 + i
  pro_cb := fun k => if k < 2 then .ret 512 else .raise 9
  con_cb := fun _ => .ret

/-- A complete run of `cfgProFault`. -/
def schedProFault : List Tid :=
  List.replicate 6 .producer ++ List.replicate 6 .consumer ++ List.replicate 6 .producer ++
  List.replicate 6 .consumer ++ List.replicate 6 .producer ++ List.replicate 5 .consumer

/-- Two slots; produce returns 5 and then raises fault 9; consume raises fault 7. -/
def cfgBoth : Config where
  n_buffers := 2
  buffer_size := 8
  buffers := fun i => 100 + i
  pro_cb := fun k => if k < 1 then .ret 5 else .raise 9
  con_cb := fun _ => .raise 7

/-- A complete run of `cfgBoth`: the worker captures fault 9 while the driver is inside
the consume invocation that raises fault 7. -/
def schedBoth : List Tid :=
  List.replicate 6 .producer ++ List.replicate 4 .consumer ++ List.replicate 6 .producer ++
  List.replicate 4 .consumer

/-- One slot; produce always fills 512 bytes; consume raises fault 7 on its fourth
invocation. -/
def cfgBlocked : Config where
  n_buffers := 1
  buffer_size := 512
  buffers := fun i => 100 + i
  pro_cb := fun _ => .ret 512
  con_cb := fun j => if j < 3 then .ret else .raise 7

/-- A run of `cfgBlocked` up to the start of finalization: the worker waits on the
empty `n_empty_sem`. -/
def schedBlocked : List Tid :=
  List.replicate 6 .producer ++ List.replicate 6 .consumer ++ List.replicate 6 .producer ++
  List.replicate 6 .consumer ++ List.replicate 6 .producer ++ List.replicate 6 .consumer ++
  List.replicate 6 .producer ++ List.replicate 5 .consumer

/-- The rest of the run of `cfgBlocked` after `schedBlocked`. -/
def schedWindDown : List Tid :=
  List.replicate 2 .consumer ++ List.replicate 3 .producer ++ [.consumer]

/-- Two slots (the default); produce raises fault 1 on its first invocation. -/
def cfgFault : Config where
  n_buffers := 2
  buffer_size := 512
  buffers := fun i => 100 + i
  pro_cb := fun _ => .raise 1
  con_cb := fun _ => .ret

/-- The worker of `cfgFault` runs until it returns at line 84. -/
def schedFault : List Tid := List.replicate 6 .producer

/-- A run of `cfgStream` that stops with the worker inside produce on slot 1 and the
driver inside consume on slot 0. -/
def schedOverlap : List Tid := List.replicate 9 .producer ++ List.replicate 4 .consumer

/-- The state `schedWindDown` leads to from the state `schedBlocked` leads to. -/
def finalBlocked : State :=
  (exec cfgBlocked schedWindDown (run cfgBlocked schedBlocked)).getD (init cfgBlocked)

/-! ## Part 2: theorems -/

theorem core_init (cfg : Config) : Core cfg (init cfg) := by
  constructor <;> simp [init, PPc.holds, CPc.holds, CPc.acquired, PPc.unpublished, PPc.faulted,
    PPc.pending, PPc.storing, CPc.releasing, CPc.in_loop, PPc.terminated, PPc.last_open]

theorem mod_succ_pred {n a : Nat} (h : 1 ≤ a) : ((a - 1) % n + 1) % n = a % n := by
  rw [Nat.mod_add_mod]
  congr 1
  omega

theorem core_stepProducer {cfg : Config} {s s' : State} (hC : Core cfg s)
    (h : stepProducer cfg s = some s') : Core cfg s' := by
  cases hp : s.pro <;> simp only [stepProducer, hp] at h
  all_goals (try split at h)
  all_goals (first | cases h | skip)
  all_goals exact
    { tokens := by
        have := hC.tokens
        simp only [hp, PPc.holds] at this ⊢
        (try split_ifs) <;> (try simp only [PPc.holds]) <;> omega
      filled := by
        have := hC.filled
        simp only [hp, PPc.unpublished, PPc.faulted] at this ⊢
        (try split_ifs) <;> (try simp only [PPc.unpublished, PPc.faulted]) <;> omega
      pro_calls := by
        have := hC.pro_calls
        simp only [hp, PPc.pending, List.length_append, List.length_singleton] at this ⊢
        (try split_ifs) <;> (try simp only [PPc.pending]) <;> omega
      stop_iff := by
        have := hC.stop_iff
        simpa using this
      stop_path := by
        have := hC.stop_path
        simp_all
      final_token := by
        have := hC.final_token
        have := hC.stop_iff
        simp_all <;> omega
      joined := by
        have := hC.joined
        simp_all [PPc.terminated]
      open_pos := by
        have := hC.open_pos
        simp only [hp, PPc.last_open] at this ⊢
        (try split_ifs) <;> (try simp only [PPc.last_open]) <;> omega
      release_pos := by
        have := hC.release_pos
        simpa using this
      next_idx := by
        have := hC.next_idx
        have := hC.open_pos
        simp_all [PPc.storing, PPc.last_open, mod_succ_pred]
      con_idx := by
        have := hC.con_idx
        simpa using this
      ex_none := by
        have := hC.ex_none
        have := hC.caught_some
        simp_all
      caught_some := by simp
      con_exc_none := by
        have := hC.con_exc_none
        simpa using this
      done_iff := by
        have := hC.done_iff
        simp_all
      buffers_eq := by
        have := hC.buffers_eq
        simpa using this }

theorem core_stepConsumer {cfg : Config} {s s' : State} (hC : Core cfg s)
    (h : stepConsumer cfg s = some s') : Core cfg s' := by
  cases hp : s.con <;> simp only [stepConsumer, hp] at h
  all_goals (try split at h)
  all_goals (first | cases h | skip)
  all_goals exact
    { tokens := by
        have := hC.tokens
        simp only [hp, CPc.holds] at this ⊢
        (try split_ifs) <;> (try simp only [CPc.holds]) <;> omega
      filled := by
        have := hC.filled
        simp only [hp, CPc.acquired] at this ⊢
        (try split_ifs) <;> (try simp only [CPc.acquired]) <;> omega
      pro_calls := by
        have := hC.pro_calls
        simpa using this
      stop_iff := by
        have := hC.stop_iff
        simp_all <;> (try split_ifs) <;> (try simp)
      stop_path := by
        have := hC.stop_path
        simp_all
      final_token := by
        have := hC.final_token
        simp_all <;> (try split_ifs) <;> (try simp)
      joined := by
        have := hC.joined
        simp_all <;> (try split_ifs) <;> (try simp)
      open_pos := by
        have := hC.open_pos
        simpa using this
      release_pos := by simp
      next_idx := by
        have := hC.next_idx
        simpa using this
      con_idx := by
        have := hC.con_idx
        have := hC.release_pos
        simp_all [CPc.releasing, CPc.in_loop, mod_succ_pred] <;> (try split_ifs) <;> (try simp [CPc.releasing, CPc.in_loop])
      ex_none := by
        have := hC.ex_none
        simpa using this
      caught_some := by
        have := hC.caught_some
        simpa using this
      con_exc_none := by
        have := hC.con_exc_none
        simp_all [CPc.in_loop] <;> (try split_ifs) <;> (try simp [CPc.in_loop])
      done_iff := by
        have := hC.done_iff
        simpa using this
      buffers_eq := by
        have := hC.buffers_eq
        simpa using this }

theorem CPc.token_cases (c : CPc) :
    (c ≠ .join ∧ c ≠ .returned ∧ c.holds = c.acquired + c.releasing) ∨
    ((c = .join ∨ c = .returned) ∧ c.holds = 0 ∧ c.acquired = 1 ∧ c.releasing = 0) := by
  cases c <;> simp [CPc.holds, CPc.acquired, CPc.releasing]

/-- The worker never runs more than `n_buffers` fills ahead of the slots the driver
has released. -/
theorem Core.window {cfg : Config} {s : State} (hC : Core cfg s) :
    s.pro_log.length + s.con.releasing + (if s.pro = .call then 1 else 0)
      ≤ cfg.n_buffers + s.con_returned := by
  have h1 := hC.tokens
  have h2 := hC.filled
  have h3 := hC.pro_calls
  have h4 := hC.final_token
  rcases CPc.token_cases s.con with ⟨h5, h6, h7⟩ | ⟨h5, h6, h7, h8⟩
  · clear h4
    revert h1 h2 h3
    cases s.pro <;> simp [PPc.holds, PPc.unpublished, PPc.faulted, PPc.pending] <;>
      intros <;> omega
  · have h9 := h4 h5
    clear h4 h5
    revert h1 h2 h3 h9
    cases s.pro <;> simp [PPc.holds, PPc.unpublished, PPc.faulted, PPc.pending] <;>
      intros <;> omega

theorem mod_ne_of_window {n a b : Nat} (h1 : a < b) (h2 : b < a + n) : a % n ≠ b % n := by
  intro h
  have h3 : (b - a) % n = 0 := Nat.sub_mod_eq_zero_of_mod_eq h.symm
  have h4 : n ∣ b - a := Nat.dvd_of_mod_eq_zero h3
  have h5 : n ≤ b - a := Nat.le_of_dvd (by omega) h4
  omega

theorem data_init (cfg : Config) : Data cfg (init cfg) := by
  constructor <;> simp [init, CPc.touching, CPc.in_loop]

theorem data_stepProducer {cfg : Config} {s s' : State} (hC : Core cfg s) (hD : Data cfg s)
    (h : stepProducer cfg s = some s') : Data cfg s' := by
  have hw := hC.window
  cases hp : s.pro <;> simp only [stepProducer, hp] at h
  case store =>
    cases h
    have hpos := hC.open_pos
    simp only [hp, PPc.last_open] at hpos
    have hlen := hD.stored_len hp
    have hidx := hC.next_idx
    have hcalls := hC.pro_calls
    simp only [hp, PPc.storing, PPc.pending, if_neg, reduceCtorEq] at hidx hcalls hw
    exact
      { rets := hD.rets
        positives := by
          intro k hk
          have h0 := hD.positives k
          simp only [hp, PPc.last_open] at h0
          by_cases hz : s.buffer_len = 0
          · simp only [hz, if_true, PPc.last_open] at hk
            exact h0 hk
          · simp only [hz, if_false, PPc.last_open] at hk
            by_cases hk2 : k + 1 < s.pro_returned
            · exact h0 hk2
            · have hk3 : k = s.pro_returned - 1 := by omega
              rw [hk3]
              unfold ProOutcome.positive
              rw [hlen]
              exact Nat.pos_of_ne_zero hz
        stored_len := by
          intro h0
          simp only at h0
          split_ifs at h0
        eof_len := by
          intro h0
          by_cases hz : s.buffer_len = 0
          · simpa [hz] using hlen
          · simp [hz] at h0
        caught_eq := by
          intro h0
          simp only at h0
          split_ifs at h0
        ex_eq := hD.ex_eq
        consumed := hD.consumed
        published := by
          intro ht
          have := hD.published ht
          simp only [hp, PPc.unpublished] at this ⊢
          split_ifs <;> simp only [PPc.unpublished] <;> omega
        lengths := by
          intro k h1 h2
          simp only at h1 h2 ⊢
          have h3 : k < s.pro_returned := by omega
          by_cases hk : k = s.pro_returned - 1
          · rw [hk, hidx, Function.update_same, hlen]
            rfl
          · have hne : k % cfg.n_buffers ≠ s.next_buffer_idx := by
              rw [hidx]
              apply mod_ne_of_window <;> omega
            rw [Function.update_noteq hne]
            apply hD.lengths k h1
            simp only [hp, PPc.storing]
            omega
        read_eq := hD.read_eq
        con_calls := hD.con_calls
        exit_reason := hD.exit_reason }
  case in_call =>
    have hn : s.ex_ptr = none := hC.ex_none.mpr (by simp [hp])
    split at h
    · cases h
      rename_i len heq
      exact
        { rets := by
            intro k hk
            by_cases hk2 : k < s.pro_returned
            · exact hD.rets k hk2
            · have hk3 : k = s.pro_returned := Nat.eq_of_lt_succ_of_not_lt hk hk2
              rw [hk3]
              exact ⟨_, heq⟩
          positives := by
            intro k hk
            apply hD.positives k
            simp only [hp, PPc.last_open] at hk ⊢
            omega
          stored_len := by
            intro _
            simpa using heq
          eof_len := by
            intro h0
            simp at h0
          caught_eq := by
            intro h0
            simp at h0
          ex_eq := by
            intro e he
            simp only [hn] at he
            cases he
          consumed := hD.consumed
          published := by
            intro ht
            have := hD.published ht
            simp only [hp, PPc.unpublished] at this ⊢
            omega
          lengths := by
            intro k h1 h2
            apply hD.lengths k h1
            simp only [hp, PPc.storing] at h2 ⊢
            omega
          read_eq := hD.read_eq
          con_calls := hD.con_calls
          exit_reason := by
            intro h0
            rcases hD.exit_reason h0 with ⟨h1, h2, h3, h4, h5⟩ | h1 | h1
            · exact Or.inl ⟨h1, h2, Nat.lt_succ_of_lt h3, h4, h5⟩
            · exact Or.inr (Or.inl h1)
            · exact Or.inr (Or.inr h1) }
    · cases h
      rename_i e heq
      exact
        { rets := hD.rets
          positives := by
            intro k hk
            apply hD.positives k
            simp only [hp, PPc.last_open] at hk ⊢
            omega
          stored_len := by
            intro h0
            simp at h0
          eof_len := by
            intro h0
            simp at h0
          caught_eq := by
            intro _ e2 he
            simp only [Option.some.injEq] at he
            rw [← he]
            exact heq
          ex_eq := hD.ex_eq
          consumed := hD.consumed
          published := by
            intro ht
            have := hD.published ht
            simp only [hp, PPc.unpublished] at this ⊢
            omega
          lengths := by
            intro k h1 h2
            apply hD.lengths k h1
            simp only [hp, PPc.storing] at h2 ⊢
            omega
          read_eq := hD.read_eq
          con_calls := hD.con_calls
          exit_reason := hD.exit_reason }
  all_goals (try split at h)
  all_goals (first | cases h | skip)
  all_goals exact
    { rets := hD.rets
      positives := by
        intro k hk
        apply hD.positives k
        simp only [hp, PPc.last_open] at hk ⊢
        omega
      stored_len := by
        intro h0
        simp at h0
      eof_len := by
        intro h0
        first
        | (simp at h0; done)
        | exact hD.eof_len (Or.inl hp)
        | exact hD.eof_len (Or.inr (Or.inl hp))
      caught_eq := by
        intro h0
        simp at h0
      ex_eq := by
        first
        | exact hD.ex_eq
        | exact hD.caught_eq hp
      consumed := hD.consumed
      published := by
        intro ht
        have := hD.published ht
        simp only [hp, PPc.unpublished] at this ⊢
        omega
      lengths := by
        intro k h1 h2
        apply hD.lengths k h1
        simp only [hp, PPc.storing] at h2 ⊢
        omega
      read_eq := hD.read_eq
      con_calls := hD.con_calls
      exit_reason := by
        first
        | exact hD.exit_reason
        | (intro h0
           have hn : s.ex_ptr = none := hC.ex_none.mpr (by simp [hp])
           rcases hD.exit_reason h0 with h1 | ⟨e, h1, h2, h3⟩ | h1
           · exact Or.inl h1
           · rw [hn] at h2
             cases h2
           · exact Or.inr (Or.inr h1)) }

theorem PPc.faulted_eq_zero {p : PPc} (h : p ≠ .ret_fault) : p.faulted = 0 := by
  cases p <;> simp [PPc.faulted] at h ⊢

theorem PPc.storing_le_unpublished (p : PPc) : p.storing ≤ p.unpublished := by
  cases p <;> simp [PPc.storing, PPc.unpublished]

theorem data_stepConsumer {cfg : Config} {s s' : State} (hC : Core cfg s) (hD : Data cfg s)
    (h : stepConsumer cfg s = some s') : Data cfg s' := by
  cases hp : s.con <;> simp only [stepConsumer, hp] at h
  case check_ex =>
    have hcalls := hD.con_calls (by rw [hp]; rfl)
    simp [hp] at hcalls
    split at h
    · cases h
      rename_i e heq
      exact
        { rets := hD.rets
          positives := hD.positives
          stored_len := hD.stored_len
          eof_len := hD.eof_len
          caught_eq := hD.caught_eq
          ex_eq := hD.ex_eq
          consumed := hD.consumed
          published := by
            intro ht
            simp [CPc.touching] at ht
          lengths := by
            intro k h1 h2
            apply hD.lengths k _ h2
            simp only [hp, CPc.releasing] at h1 ⊢
            omega
          read_eq := by
            intro h0
            simp at h0
          con_calls := by
            intro h0
            simp [CPc.in_loop] at h0
          exit_reason := fun _ => Or.inr (Or.inl ⟨e, rfl, heq, hcalls⟩) }
    · cases h
      rename_i heq
      have hf := hC.filled
      have hz := PPc.faulted_eq_zero (hC.ex_none.mp heq).2
      simp only [hp, CPc.acquired, hz] at hf
      exact
        { rets := hD.rets
          positives := hD.positives
          stored_len := hD.stored_len
          eof_len := hD.eof_len
          caught_eq := hD.caught_eq
          ex_eq := hD.ex_eq
          consumed := hD.consumed
          published := by
            intro _
            simp only [CPc.releasing]
            omega
          lengths := by
            intro k h1 h2
            apply hD.lengths k _ h2
            simp only [hp, CPc.releasing] at h1 ⊢
            omega
          read_eq := by
            intro h0
            simp at h0
          con_calls := by
            intro _
            simpa using hcalls
          exit_reason := by
            intro h0
            simp [CPc.in_loop] at h0 }
  case read_len =>
    cases h
    have hcalls := hD.con_calls (by rw [hp]; rfl)
    have hpub := hD.published (by rw [hp]; rfl)
    have hidx := hC.con_idx (by rw [hp]; rfl)
    have hst := PPc.storing_le_unpublished s.pro
    simp [hp, CPc.releasing] at hcalls hpub hidx
    have hL : s.buffer_lengths s.consumer_buffer_idx = (cfg.pro_cb s.con_returned).len := by
      rw [hidx]
      apply hD.lengths
      · omega
      · omega
    exact
      { rets := hD.rets
        positives := hD.positives
        stored_len := hD.stored_len
        eof_len := hD.eof_len
        caught_eq := hD.caught_eq
        ex_eq := hD.ex_eq
        consumed := hD.consumed
        published := by
          intro ht
          simp only at ht ⊢
          split_ifs at ht ⊢
          · simp [CPc.touching] at ht
          · simp only [CPc.releasing]
            omega
        lengths := by
          intro k h1 h2
          apply hD.lengths k _ h2
          simp only [hp, CPc.releasing] at h1 ⊢
          split_ifs at h1 <;> simp only [CPc.releasing] at h1 <;> omega
        read_eq := by
          intro h0
          simp only at h0 ⊢
          split_ifs at h0 with hz
          · simp at h0
          · exact ⟨hL, Nat.pos_of_ne_zero hz⟩
        con_calls := by
          intro h0
          by_cases hz : s.buffer_lengths s.consumer_buffer_idx = 0 <;>
            simp [hz, CPc.in_loop] at h0 ⊢ <;> exact hcalls
        exit_reason := by
          intro h0
          simp only at h0 ⊢
          split_ifs at h0 with hz
          · left
            obtain ⟨l, hl⟩ := hD.rets s.con_returned (by omega)
            rw [hL, hl] at hz
            simp only [ProOutcome.len] at hz
            rw [hz] at hl
            exact ⟨hC.con_exc_none (by rw [hp]; rfl), hcalls, by omega, hl, hidx⟩
          · simp [CPc.in_loop] at h0 }
  case in_call =>
    have hcalls := hD.con_calls (by rw [hp]; rfl)
    have hread := hD.read_eq (Or.inr hp)
    simp only [hp, if_true] at hcalls
    split at h
    · cases h
      rename_i heq
      exact
        { rets := hD.rets
          positives := hD.positives
          stored_len := hD.stored_len
          eof_len := hD.eof_len
          caught_eq := hD.caught_eq
          ex_eq := hD.ex_eq
          consumed := by
            intro j hj
            by_cases hj2 : j < s.con_returned
            · exact hD.consumed j hj2
            · have hj3 : j = s.con_returned := Nat.eq_of_lt_succ_of_not_lt hj hj2
              rw [hj3]
              refine ⟨heq, ?_⟩
              unfold ProOutcome.positive
              rw [← hread.1]
              exact hread.2
          published := by
            intro _
            have := hD.published (by rw [hp]; rfl)
            simp only [hp, CPc.releasing] at this ⊢
            omega
          lengths := by
            intro k h1 h2
            apply hD.lengths k _ h2
            simp only [hp, CPc.releasing] at h1 ⊢
            omega
          read_eq := by
            intro h0
            simp at h0
          con_calls := by
            intro _
            simpa using hcalls
          exit_reason := by
            intro h0
            simp [CPc.in_loop] at h0 }
    · cases h
      rename_i e heq
      exact
        { rets := hD.rets
          positives := hD.positives
          stored_len := hD.stored_len
          eof_len := hD.eof_len
          caught_eq := hD.caught_eq
          ex_eq := hD.ex_eq
          consumed := hD.consumed
          published := by
            intro ht
            simp [CPc.touching] at ht
          lengths := by
            intro k h1 h2
            apply hD.lengths k _ h2
            simp only [hp, CPc.releasing] at h1 ⊢
            omega
          read_eq := by
            intro h0
            simp at h0
          con_calls := by
            intro h0
            simp [CPc.in_loop] at h0
          exit_reason := fun _ => Or.inr (Or.inr ⟨e, rfl, heq, hcalls⟩) }
  all_goals (try split at h)
  all_goals (first | cases h | skip)
  all_goals exact
    { rets := hD.rets
      positives := hD.positives
      stored_len := hD.stored_len
      eof_len := hD.eof_len
      caught_eq := hD.caught_eq
      ex_eq := hD.ex_eq
      consumed := hD.consumed
      published := by
        intro ht
        first
        | (simp [CPc.touching] at ht; done)
        | (have hq := hD.published (by rw [hp]; rfl)
           simp only [hp, CPc.releasing] at hq ⊢
           omega)
      lengths := by
        intro k h1 h2
        apply hD.lengths k _ h2
        simp only [hp, CPc.releasing] at h1 ⊢
        omega
      read_eq := by
        intro h0
        first
        | (simp at h0; done)
        | exact hD.read_eq (Or.inl hp)
      con_calls := by
        intro h0
        first
        | (simp [CPc.in_loop] at h0; done)
        | (have hq := hD.con_calls (by rw [hp]; rfl)
           simp only [hp, List.length_append, List.length_singleton] at hq ⊢
           simp at hq ⊢
           omega)
      exit_reason := by
        intro h0
        first
        | (simp [CPc.in_loop] at h0; done)
        | exact hD.exit_reason (by rw [hp]; rfl) }

theorem getElem?_snoc {α : Type} {l : List α} {x e : α} {k : Nat}
    (h : (l ++ [x])[k]? = some e) : l[k]? = some e ∨ (k = l.length ∧ e = x) := by
  by_cases hk : k < l.length
  · rw [List.getElem?_append_left hk] at h
    exact Or.inl h
  · rw [List.getElem?_append_right (Nat.le_of_not_lt hk)] at h
    right
    cases hd : k - l.length with
    | zero =>
      rw [hd] at h
      simp at h
      exact ⟨by omega, h.symm⟩
    | succ n =>
      rw [hd] at h
      simp at h

theorem logs_init (cfg : Config) : Logs cfg (init cfg) := by
  constructor <;> simp [init]

theorem logs_stepProducer {cfg : Config} {s s' : State} (hC : Core cfg s) (hL : Logs cfg s)
    (h : stepProducer cfg s = some s') : Logs cfg s' := by
  cases hp : s.pro <;> simp only [stepProducer, hp] at h
  case call =>
    cases h
    have hw := hC.window
    have hidx := hC.next_idx
    have hcalls := hC.pro_calls
    have hb := hC.buffers_eq
    simp [hp, PPc.storing, PPc.pending] at hw hidx hcalls
    refine ⟨?_, hL.con_entries⟩
    intro k e he
    rcases getElem?_snoc he with h1 | ⟨h1, h2⟩
    · exact hL.pro_entries k e h1
    · subst h2
      rw [hb, hidx, h1, hcalls]
      refine ⟨rfl, rfl, rfl, ?_⟩
      simp only
      omega
  all_goals (try split at h)
  all_goals (first | cases h | skip)
  all_goals exact ⟨hL.pro_entries, hL.con_entries⟩

theorem logs_stepConsumer {cfg : Config} {s s' : State} (hC : Core cfg s) (hD : Data cfg s)
    (hL : Logs cfg s) (h : stepConsumer cfg s = some s') : Logs cfg s' := by
  cases hp : s.con <;> simp only [stepConsumer, hp] at h
  case call =>
    cases h
    have hidx := hC.con_idx (by rw [hp]; rfl)
    have hcalls := hD.con_calls (by rw [hp]; rfl)
    have hpub := hD.published (by rw [hp]; rfl)
    have hread := hD.read_eq (Or.inl hp)
    have hb := hC.buffers_eq
    simp [hp, CPc.releasing] at hidx hcalls hpub
    refine ⟨hL.pro_entries, ?_⟩
    intro j e he
    rcases getElem?_snoc he with h1 | ⟨h1, h2⟩
    · exact hL.con_entries j e h1
    · subst h2
      rw [hb, hidx, h1, hcalls]
      refine ⟨rfl, rfl, hread.1, hread.2, ?_⟩
      simp only
      omega
  all_goals (try split at h)
  all_goals (first | cases h | skip)
  all_goals exact ⟨hL.pro_entries, hL.con_entries⟩

theorem inv_init (cfg : Config) : Inv cfg (init cfg) :=
  ⟨core_init cfg, data_init cfg, logs_init cfg⟩

theorem inv_step {cfg : Config} {t : Tid} {s s' : State} (hI : Inv cfg s)
    (h : step cfg t s = some s') : Inv cfg s' := by
  cases t
  · exact ⟨core_stepProducer hI.core h, data_stepProducer hI.core hI.data h,
      logs_stepProducer hI.core hI.logs h⟩
  · exact ⟨core_stepConsumer hI.core h, data_stepConsumer hI.core hI.data h,
      logs_stepConsumer hI.core hI.data hI.logs h⟩

theorem exec_cons {cfg : Config} {t : Tid} {ts : List Tid} {s s' : State}
    (h : exec cfg (t :: ts) s = some s') :
    ∃ s1, step cfg t s = some s1 ∧ exec cfg ts s1 = some s' := by
  simp only [exec] at h
  cases hs : step cfg t s with
  | none => simp [hs] at h
  | some s1 => exact ⟨s1, rfl, by simpa [hs] using h⟩

theorem inv_exec {cfg : Config} {sched : List Tid} {s s' : State} (hI : Inv cfg s)
    (h : exec cfg sched s = some s') : Inv cfg s' := by
  induction sched generalizing s with
  | nil =>
    simp only [exec, Option.some.injEq] at h
    exact h ▸ hI
  | cons t ts ih =>
    obtain ⟨s1, h1, h2⟩ := exec_cons h
    exact ih (inv_step hI h1) h2

theorem inv_reachable {cfg : Config} {s : State} (h : Reachable cfg s) : Inv cfg s := by
  obtain ⟨sched, hs⟩ := h
  exact inv_exec (inv_init cfg) hs

theorem reachable_step {cfg : Config} {t : Tid} {s s' : State} (hr : Reachable cfg s)
    (h : step cfg t s = some s') : Reachable cfg s' := by
  obtain ⟨sched, hs⟩ := hr
  refine ⟨sched ++ [t], ?_⟩
  have key : ∀ (l : List Tid) (a : State), exec cfg l a = some s →
      exec cfg (l ++ [t]) a = some s' := by
    intro l
    induction l with
    | nil =>
      intro a ha
      simp only [exec, Option.some.injEq] at ha
      subst ha
      simp [exec, h]
    | cons u us ih =>
      intro a ha
      obtain ⟨a1, h1, h2⟩ := exec_cons ha
      simp only [List.cons_append, exec, h1, Option.some_bind]
      exact ih a1 h2
  exact key sched _ hs

theorem exec_append {cfg : Config} {l1 l2 : List Tid} {a b c : State}
    (h1 : exec cfg l1 a = some b) (h2 : exec cfg l2 b = some c) :
    exec cfg (l1 ++ l2) a = some c := by
  induction l1 generalizing a with
  | nil =>
    simp only [exec, Option.some.injEq] at h1
    subst h1
    simpa using h2
  | cons u us ih =>
    obtain ⟨a1, h3, h4⟩ := exec_cons h1
    simp only [List.cons_append, exec, h3, Option.some_bind]
    exact ih h4

theorem reachable_exec {cfg : Config} {sched : List Tid} {s s' : State} (hr : Reachable cfg s)
    (h : exec cfg sched s = some s') : Reachable cfg s' := by
  obtain ⟨l, hl⟩ := hr
  exact ⟨l ++ sched, exec_append hl h⟩

/-- The driver has an enabled step unless it waits on an empty `n_filled_sem`, waits
in `join` for a running worker, or has returned. -/
theorem consumer_enabled (cfg : Config) {s : State}
    (h1 : s.con = .acquire → 0 < s.n_filled_sem)
    (h2 : s.con = .join → s.pro.terminated = true)
    (h3 : s.con ≠ .returned) : ∃ s', stepConsumer cfg s = some s' := by
  unfold stepConsumer
  cases hc : s.con <;> simp only [hc] at h1 h2 h3 ⊢
  case acquire => simp [h1]
  case join => simp [h2]
  case returned => exact absurd rfl h3
  case check_ex => split <;> exact ⟨_, rfl⟩
  case in_call => split <;> exact ⟨_, rfl⟩
  all_goals exact ⟨_, rfl⟩

/-- The worker has an enabled step unless it waits on an empty `n_empty_sem` or has
returned. -/
theorem producer_enabled (cfg : Config) {s : State}
    (h1 : s.pro = .acquire → 0 < s.n_empty_sem)
    (h2 : s.pro.terminated = false) : ∃ s', stepProducer cfg s = some s' := by
  unfold stepProducer
  cases hp : s.pro <;> simp only [hp, PPc.terminated] at h1 h2 ⊢
  case acquire => simp [h1]
  case check_stop => split <;> exact ⟨_, rfl⟩
  case in_call => split <;> exact ⟨_, rfl⟩
  all_goals first | exact ⟨_, rfl⟩ | cases h2

/-- No deadlock: while `procon` has not returned, one of the two threads can step. -/
theorem progress {cfg : Config} {s : State} (hN : 1 ≤ cfg.n_buffers) (hI : Inv cfg s)
    (hret : s.con ≠ .returned) : ∃ t s', step cfg t s = some s' := by
  by_cases hc : (s.con = .acquire → 0 < s.n_filled_sem) ∧ (s.con = .join → s.pro.terminated = true)
  · obtain ⟨s', hs⟩ := consumer_enabled cfg hc.1 hc.2 hret
    exact ⟨.consumer, s', hs⟩
  · have hp : (s.pro = .acquire → 0 < s.n_empty_sem) ∧ s.pro.terminated = false := by
      have h1 := hI.core.tokens
      have h2 := hI.core.filled
      have h3 := hI.core.stop_iff
      have h4 := hI.core.stop_path
      have h5 := hI.core.final_token
      have h6 := hI.core.open_pos
      have h7 := hI.core.ex_none
      have h8 := hI.data.ex_eq
      have h9 := hI.data.eof_len
      have h10 := hI.data.consumed
      rw [not_and_or] at hc
      rcases hc with hc | hc
      · push_neg at hc
        obtain ⟨hca, hcz⟩ := hc
        have hz : s.n_filled_sem = 0 := by omega
        simp only [hca, hz, CPc.holds, CPc.acquired, reduceCtorEq, or_self, iff_false] at h1 h2 h3
        refine ⟨?_, ?_⟩
        · intro hpa
          simp only [hpa, PPc.holds] at h1
          omega
        · cases hpc : s.pro <;> simp only [PPc.terminated]
          · have := h4 (Or.inr hpc)
            exact absurd this h3
          · have hne : s.ex_ptr ≠ none := by
              intro hn
              exact (h7.mp hn).2 hpc
            obtain ⟨e, he⟩ := Option.ne_none_iff_exists'.mp hne
            have hraise := h8 e he
            simp only [hpc, PPc.unpublished, PPc.faulted] at h2
            have hpos := (h10 s.pro_returned (by omega)).2
            unfold ProOutcome.positive at hpos
            rw [hraise] at hpos
            simp [ProOutcome.len] at hpos
          · have hz0 := h9 (Or.inr (Or.inr hpc))
            simp only [hpc, PPc.unpublished, PPc.faulted, PPc.last_open] at h2 h6
            have hpos := (h10 (s.pro_returned - 1) (by omega)).2
            unfold ProOutcome.positive at hpos
            rw [hz0] at hpos
            simp [ProOutcome.len] at hpos
      · push_neg at hc
        obtain ⟨hcj, hnt⟩ := hc
        refine ⟨?_, by simpa using hnt⟩
        intro hpa
        rcases h5 (Or.inl hcj) with h | h | h | h
        · exact h
        · rw [hpa] at h
          cases h
        · rw [hpa] at h
          cases h
        · rw [hpa] at h
          cases h
    obtain ⟨s', hs⟩ := producer_enabled cfg hp.1 hp.2
    exact ⟨.producer, s', hs⟩

theorem remaining_init (cfg : Config) (P C : Nat) :
    remaining P C (init cfg) = stepBound P C := by
  simp only [remaining, init, stepBound, PPc.weight, CPc.weight, List.length_nil]
  omega

theorem remaining_step {cfg : Config} {P C : Nat} {t : Tid} {s s' : State}
    (hP : s.pro = .call → s.pro_log.length < P) (hQ : s.con = .call → s.con_log.length < C)
    (h : step cfg t s = some s') : remaining P C s' < remaining P C s := by
  cases t
  · simp only [step] at h
    cases hp : s.pro <;> simp only [stepProducer, hp] at h
    all_goals (try split at h)
    all_goals (first | cases h | skip)
    all_goals simp only [remaining, hp, PPc.weight, List.length_append, List.length_singleton]
    all_goals (try split_ifs) <;> (try simp only [PPc.weight]) <;>
      (try have := hP hp) <;> omega
  · simp only [step] at h
    cases hp : s.con <;> simp only [stepConsumer, hp] at h
    all_goals (try split at h)
    all_goals (first | cases h | skip)
    all_goals simp only [remaining, hp, CPc.weight, List.length_append, List.length_singleton]
    all_goals (try split_ifs) <;> (try simp only [CPc.weight]) <;>
      (try have := hQ hp) <;> omega

theorem exec_bounded {cfg : Config} {P C : Nat}
    (hQ : ∀ s, Inv cfg s → (s.pro = .call → s.pro_log.length < P) ∧
      (s.con = .call → s.con_log.length < C))
    {sched : List Tid} {s s' : State} (hI : Inv cfg s) (h : exec cfg sched s = some s') :
    sched.length + remaining P C s' ≤ remaining P C s := by
  induction sched generalizing s with
  | nil =>
    simp only [exec, Option.some.injEq] at h
    subst h
    simp
  | cons t ts ih =>
    obtain ⟨s1, h1, h2⟩ := exec_cons h
    have h3 := remaining_step (hQ s hI).1 (hQ s hI).2 h1
    have h4 := ih (inv_step hI h1) h2
    simp only [List.length_cons]
    omega

/-- When produce invocation `M` does not return a positive length, the worker begins
at most `M + 1` produce invocations and the driver at most `M + 1` consume invocations. -/
theorem calls_bounded_of_stream_end {cfg : Config} {M : Nat}
    (hend : ¬ (cfg.pro_cb M).positive) (s : State) (hI : Inv cfg s) :
    (s.pro = .call → s.pro_log.length < M + 1) ∧ (s.con = .call → s.con_log.length < M + 1) := by
  have hle : s.pro_returned ≤ M + s.pro.last_open := by
    by_contra hlt
    exact hend (hI.data.positives M (by omega))
  constructor
  · intro hp
    have := hI.core.pro_calls
    simp only [hp, PPc.pending, PPc.last_open] at this hle
    omega
  · intro hc
    have h1 := hI.data.con_calls (by rw [hc]; rfl)
    have h2 := hI.data.published (by rw [hc]; rfl)
    have h3 := (hI.data.read_eq (Or.inl hc)).2
    have h4 := (hI.data.read_eq (Or.inl hc)).1
    simp [hc, CPc.releasing] at h1 h2
    have h5 : s.pro.last_open ≤ 1 := by cases s.pro <;> simp [PPc.last_open]
    omega

/-- When consume invocation `J` raises, the driver begins at most `J + 1` consume
invocations and the worker at most `n_buffers + J` produce invocations. -/
theorem calls_bounded_of_consumer_fault {cfg : Config} {J : Nat} {e : Fault}
    (hJ : cfg.con_cb J = .raise e) (s : State) (hI : Inv cfg s) :
    (s.pro = .call → s.pro_log.length < cfg.n_buffers + J) ∧
    (s.con = .call → s.con_log.length < J + 1) := by
  have hle : s.con_returned ≤ J := by
    by_contra hlt
    have := (hI.data.consumed J (by omega)).1
    rw [hJ] at this
    cases this
  constructor
  · intro hp
    have := hI.core.window
    simp only [hp, if_true] at this
    omega
  · intro hc
    have h1 := hI.data.con_calls (by rw [hc]; rfl)
    simp [hc] at h1
    omega

theorem reachable_run {cfg : Config} {sched : List Tid}
    (h : (exec cfg sched (init cfg)).isSome = true) : Reachable cfg (run cfg sched) := by
  refine ⟨sched, ?_⟩
  unfold run
  cases hx : exec cfg sched (init cfg) with
  | none => simp [hx] at h
  | some a => rfl

theorem exec_run {cfg : Config} {sched : List Tid}
    (h : (exec cfg sched (init cfg)).isSome = true) :
    exec cfg sched (init cfg) = some (run cfg sched) := by
  unfold run
  cases hx : exec cfg sched (init cfg) with
  | none => simp [hx] at h
  | some a => rfl

/-- C8. `n_empty_sem` starts at `n_buffers` and `n_filled_sem` at 0, and in every
reachable state, the states after the release of finalization included, both counts are
at most `n_buffers`; so is every count a release leads to, below the declared maximum
`n_buffers + 1`. -/
theorem semaphore_bounds (cfg : Config) (s : State) (hr : Reachable cfg s) :
    (init cfg).n_empty_sem = cfg.n_buffers ∧ (init cfg).n_filled_sem = 0 ∧
    s.n_empty_sem ≤ cfg.n_buffers ∧ s.n_filled_sem ≤ cfg.n_buffers ∧
    ∀ t s', step cfg t s = some s' →
      s'.n_empty_sem ≤ cfg.n_buffers ∧ s'.n_filled_sem ≤ cfg.n_buffers := by
  have h1 := (inv_reachable hr).core.tokens
  refine ⟨rfl, rfl, by omega, by omega, ?_⟩
  intro t s' hs
  have h2 := (inv_reachable (reachable_step hr hs)).core.tokens
  omega

/-- C9. In every reachable state the number of produce invocations begun exceeds the
number of consume invocations that have returned by at most `n_buffers`; a worker that
reaches the stop check after `stop_requested` is set goes to its return without a
produce invocation. -/
theorem in_flight_bound (cfg : Config) (s : State) (hr : Reachable cfg s) :
    s.pro_log.length ≤ cfg.n_buffers + s.con_returned ∧
    (s.stop_requested = true → s.pro = .check_stop →
      ∃ s', stepProducer cfg s = some s' ∧ s'.pro = .set_done_stop ∧
        s'.pro_log = s.pro_log) := by
  have h1 := (inv_reachable hr).core.window
  refine ⟨by omega, ?_⟩
  intro hs hp
  refine ⟨{ s with pro := .set_done_stop }, ?_, rfl, rfl⟩
  simp [stepProducer, hp, hs]

/-- C7. In no reachable state do the worker (at or inside `pro_cb`, or at the store of
`buffer_lengths`) and the driver (from the read of `buffer_lengths` to the release at line
125) work on the same slot.  The fill the worker works on has a number below
`n_buffers` plus the number of slots the driver has released, in every reachable state,
those after the release of finalization included; the fill the driver works on has been
published by a release of `n_filled_sem`. -/
theorem slot_exclusive (cfg : Config) (s : State) (hr : Reachable cfg s) :
    (∀ i, ¬ (proSlot s = some i ∧ conSlot s = some i)) ∧
    (s.pro.touching = true →
      s.next_buffer_idx = (s.pro_returned - s.pro.storing) % cfg.n_buffers ∧
      s.pro_returned - s.pro.storing < cfg.n_buffers + released s) ∧
    (s.con.touching = true →
      s.consumer_buffer_idx = released s % cfg.n_buffers ∧ released s < published s) := by
  have hI := inv_reachable hr
  have hw := hI.core.window
  have hcalls := hI.core.pro_calls
  have hopen := hI.core.open_pos
  have hrel := hI.core.release_pos
  have hnext := hI.core.next_idx
  have hA : s.pro.touching = true →
      s.pro_returned - s.pro.storing < cfg.n_buffers + released s := by
    intro ht
    unfold released
    revert ht hw hcalls hopen
    cases hp : s.pro <;> simp [PPc.touching, PPc.storing, PPc.pending, PPc.last_open] <;>
      cases hc : s.con <;> simp [hc, CPc.releasing] at hrel ⊢ <;> intros <;> omega
  have hB : s.con.touching = true →
      s.consumer_buffer_idx = released s % cfg.n_buffers ∧ released s < published s := by
    intro ht
    have hpub := hI.data.published ht
    have hidx := hI.core.con_idx (by revert ht; cases s.con <;> simp [CPc.touching, CPc.in_loop])
    refine ⟨hidx, ?_⟩
    unfold released published
    revert hpub
    cases hc : s.con <;> simp [hc, CPc.releasing] at hrel ⊢ <;> intros <;> omega
  refine ⟨?_, fun ht => ⟨hnext, hA ht⟩, hB⟩
  intro i ⟨h1, h2⟩
  unfold proSlot at h1
  unfold conSlot at h2
  split_ifs at h1 h2 with hp hc
  simp only [Option.some.injEq] at h1 h2
  have h3 := hA hp
  obtain ⟨h4, h5⟩ := hB hc
  have h6 : published s ≤ s.pro_returned - s.pro.storing := by
    unfold published
    have := PPc.storing_le_unpublished s.pro
    revert hp this
    cases s.pro <;> simp [PPc.touching, PPc.storing, PPc.unpublished]
  have h7 := @mod_ne_of_window cfg.n_buffers (released s)
    (s.pro_returned - s.pro.storing) (by omega) (by omega)
  apply h7
  rw [← h4, ← hnext, h1, h2]

/-- C5. In every reachable state the array `buffers` is the one set up at the start;
produce invocation `k` (from 0) received `buffers[k mod n_buffers]` and `buffer_size`,
consume invocation `j` received `buffers[j mod n_buffers]`, and both indices are below
`n_buffers`. -/
theorem buffer_identity (cfg : Config) (hN : 1 ≤ cfg.n_buffers) (s : State)
    (hr : Reachable cfg s) :
    s.buffers = cfg.buffers ∧
    (∀ k e, s.pro_log[k]? = some e →
      e.buffer = cfg.buffers (k % cfg.n_buffers) ∧ e.max_size = cfg.buffer_size ∧
      k % cfg.n_buffers < cfg.n_buffers) ∧
    (∀ j e, s.con_log[j]? = some e →
      e.buffer = cfg.buffers (j % cfg.n_buffers) ∧ j % cfg.n_buffers < cfg.n_buffers) := by
  have hI := inv_reachable hr
  refine ⟨hI.core.buffers_eq, ?_, ?_⟩
  · intro k e he
    obtain ⟨-, h2, h3, -⟩ := hI.logs.pro_entries k e he
    exact ⟨h2, h3, Nat.mod_lt _ hN⟩
  · intro j e he
    obtain ⟨-, h2, -⟩ := hI.logs.con_entries j e he
    exact ⟨h2, Nat.mod_lt _ hN⟩

theorem winding_step {cfg : Config} {t : Tid} {s s' : State} (hW : Winding s)
    (h : step cfg t s = some s') :
    Winding s' ∧ s'.pro_log = s.pro_log ∧ windDown s' + 1 = windDown s := by
  obtain ⟨h1, h2, h3, h4, h5⟩ := hW
  cases t
  · simp only [step] at h
    rcases h2 with hp | hp | hp | hp <;> simp only [stepProducer, hp] at h
    · split at h
      · cases h
        rename_i hpos
        have hc : s.con = .join ∨ s.con = .returned := by
          rcases h1 with hc | hc | hc | hc
          · have := (h3 (Or.inl hc)).2
            omega
          · have := (h3 (Or.inr hc)).2
            omega
          · exact Or.inl hc
          · exact Or.inr hc
        have hne : s.pro ≠ .ret_stop := by rw [hp]; simp
        have hc2 : s.con = .join := by
          rcases hc with hc | hc
          · exact hc
          · exact absurd (h5 hc) hne
        refine ⟨⟨h1, by simp, ?_, h4, ?_⟩, rfl, ?_⟩
        · intro hx
          simp only [hc2, reduceCtorEq, or_self] at hx
        · intro hx
          simp only [hc2, reduceCtorEq] at hx
        · simp [windDown, hp, hc2]
      · cases h
    · have hc : s.con = .join := by
        rcases h1 with hc | hc | hc | hc
        · have := (h3 (Or.inl hc)).1
          rw [hp] at this
          cases this
        · have := (h3 (Or.inr hc)).1
          rw [hp] at this
          cases this
        · exact hc
        · have := h5 hc
          rw [hp] at this
          cases this
      have hs := h4 (Or.inr (Or.inl hc))
      rw [if_pos hs] at h
      cases h
      refine ⟨⟨h1, by simp, ?_, h4, ?_⟩, rfl, ?_⟩
      · intro hx
        simp only [hc, reduceCtorEq, or_self] at hx
      · intro hx
        simp only [hc, reduceCtorEq] at hx
      · simp [windDown, hp, hc]
    · cases h
      have hc : s.con = .join := by
        rcases h1 with hc | hc | hc | hc
        · have := (h3 (Or.inl hc)).1
          rw [hp] at this
          cases this
        · have := (h3 (Or.inr hc)).1
          rw [hp] at this
          cases this
        · exact hc
        · have := h5 hc
          rw [hp] at this
          cases this
      refine ⟨⟨h1, by simp, ?_, h4, ?_⟩, rfl, ?_⟩
      · intro hx
        simp only [hc, reduceCtorEq, or_self] at hx
      · intro _
        rfl
      · simp [windDown, hp, hc]
    · cases h
  · simp only [step] at h
    rcases h1 with hc | hc | hc | hc <;> simp only [stepConsumer, hc] at h
    · cases h
      have hb := h3 (Or.inl hc)
      refine ⟨⟨by simp, h2, fun _ => hb, fun _ => rfl, ?_⟩, rfl, ?_⟩
      · intro hx
        simp at hx
      · simp [windDown, hc, hb.1]
    · cases h
      have hb := h3 (Or.inr hc)
      have hs := h4 (Or.inl hc)
      refine ⟨⟨by simp, h2, ?_, fun _ => hs, ?_⟩, rfl, ?_⟩
      · intro hx
        simp at hx
      · intro hx
        simp at hx
      · simp [windDown, hc, hb.1]
    · split at h
      · cases h
        rename_i hterm
        have hs := h4 (Or.inr (Or.inl hc))
        have hp : s.pro = .ret_stop := by
          rcases h2 with hp | hp | hp | hp <;> simp [hp, PPc.terminated] at hterm ⊢
        refine ⟨⟨by simp, h2, ?_, fun _ => hs, fun _ => hp⟩, rfl, ?_⟩
        · intro hx
          simp at hx
        · simp [windDown, hc, hp]
      · cases h
    · cases h

theorem winding_exec {cfg : Config} {sched : List Tid} {s s' : State} (hW : Winding s)
    (h : exec cfg sched s = some s') :
    Winding s' ∧ s'.pro_log = s.pro_log ∧ sched.length + windDown s' = windDown s := by
  induction sched generalizing s with
  | nil =>
    simp only [exec, Option.some.injEq] at h
    subst h
    exact ⟨hW, rfl, by simp⟩
  | cons t ts ih =>
    obtain ⟨s1, h1, h2⟩ := exec_cons h
    obtain ⟨h3, h4, h5⟩ := winding_step hW h1
    obtain ⟨h6, h7, h8⟩ := ih h3 h2
    refine ⟨h6, h7.trans h4, ?_⟩
    simp only [List.length_cons]
    omega

/-- C4. In every reachable state in which `procon` has not returned, one of the two
threads has an enabled step.  Once finalization has set `stop_requested` and released
`n_empty_sem`, the worker has returned or has an enabled step, and if it is at the
acquire the count of `n_empty_sem` is at least 1.  From a state in which finalization
begins while the worker is blocked at the acquire, every run has at most 6 steps, begins
no produce invocation, cannot get stuck before `procon` returns, and ends with the
worker returned at line 74. -/
theorem no_deadlock (cfg : Config) (hN : 1 ≤ cfg.n_buffers) (s : State)
    (hr : Reachable cfg s) :
    (s.con ≠ .returned → ∃ t s', step cfg t s = some s') ∧
    ((s.con = .join ∨ s.con = .returned) → s.stop_requested = true ∧
      (s.pro.terminated = true ∨ ∃ s', stepProducer cfg s = some s') ∧
      (s.pro = .acquire → 1 ≤ s.n_empty_sem)) ∧
    (s.con = .set_stop → s.pro = .acquire → s.n_empty_sem = 0 →
      ∀ sched s', exec cfg sched s = some s' →
        s'.pro_log = s.pro_log ∧ sched.length ≤ 6 ∧
        (s'.con = .returned → s'.pro = .ret_stop) ∧
        (s'.con ≠ .returned → ∃ t s'', step cfg t s' = some s'')) := by
  have hI := inv_reachable hr
  refine ⟨progress hN hI, ?_, ?_⟩
  · intro hc
    have hs := hI.core.stop_iff.mpr (Or.inr hc)
    have hA : s.pro = .acquire → 1 ≤ s.n_empty_sem := by
      intro hp
      rcases hI.core.final_token hc with h | h | h | h
      · exact h
      · rw [hp] at h
        cases h
      · rw [hp] at h
        cases h
      · rw [hp] at h
        cases h
    refine ⟨hs, ?_, hA⟩
    by_cases ht : s.pro.terminated = true
    · exact Or.inl ht
    · exact Or.inr (producer_enabled cfg (fun hp => hA hp) (by simpa using ht))
  · intro hc hp he sched s' hs
    have hW : Winding s :=
      ⟨Or.inl hc, Or.inl hp, fun _ => ⟨hp, he⟩,
        fun hx => by simp [hc] at hx, fun hx => by simp [hc] at hx⟩
    obtain ⟨h1, h2, h3⟩ := winding_exec hW hs
    have h4 : windDown s = 6 := by simp [windDown, hc, hp]
    exact ⟨h2, by omega, h1.joined, progress hN (inv_reachable (reachable_exec hr hs))⟩

theorem positive_of_started {cfg : Config} {s : State} (hI : Inv cfg s) {j : Nat}
    (hj : j < s.con_log.length) : (cfg.pro_cb j).positive := by
  have he : s.con_log[j]? = some s.con_log[j] := List.getElem?_eq_getElem hj
  obtain ⟨-, -, h3, h4, -⟩ := hI.logs.con_entries j _ he
  unfold ProOutcome.positive
  omega

theorem con_log_le {cfg : Config} {s : State} (hI : Inv cfg s) {M : Nat}
    (hend : ¬ (cfg.pro_cb M).positive) : s.con_log.length ≤ M := by
  by_contra hlt
  exact hend (positive_of_started hI (by omega))

theorem pro_returned_le {cfg : Config} {s : State} (hI : Inv cfg s) {M : Nat}
    (hend : ¬ (cfg.pro_cb M).positive) : s.pro_returned ≤ M + s.pro.last_open := by
  by_contra hlt
  exact hend (hI.data.positives M (by omega))

theorem PPc.last_open_le_one (p : PPc) : p.last_open ≤ 1 := by
  cases p <;> simp [PPc.last_open]

theorem PPc.pending_of_last_open {p : PPc} (h : p.last_open = 1) : p.pending = 0 := by
  cases p <;> simp [PPc.last_open, PPc.pending] at h ⊢

theorem not_positive_ret_zero {o : ProOutcome} (h : o = .ret 0) : ¬ o.positive := by
  rw [h]
  simp [ProOutcome.positive, ProOutcome.len]

theorem not_positive_raise {o : ProOutcome} {e : Fault} (h : o = .raise e) : ¬ o.positive := by
  rw [h]
  simp [ProOutcome.positive, ProOutcome.len]

/-- End of stream: once the driver has left its loop, it has consumed the `m` positive
fills and holds no exception. -/
theorem exit_of_stream_end {cfg : Config} {s : State} (hI : Inv cfg s) {m : Nat}
    (hpos : ∀ k, k < m → (cfg.pro_cb k).positive) (hz : cfg.pro_cb m = .ret 0)
    (hcon : ∀ j, cfg.con_cb j = .ret) (hx : s.con.in_loop = false) :
    s.consumer_exception = none ∧ s.con_log.length = m ∧ s.con_returned = m ∧
    s.consumer_buffer_idx = m % cfg.n_buffers ∧ s.pro_log.length = m + 1 := by
  have hend := not_positive_ret_zero hz
  have hle := pro_returned_le hI hend
  have h1 := PPc.last_open_le_one s.pro
  rcases hI.data.exit_reason hx with ⟨h2, h3, h4, h5, h6⟩ | ⟨e, h2, h3, h4⟩ | ⟨e, h2, h3, h4⟩
  · have h7 : ¬ s.con_returned < m := fun hlt => not_positive_ret_zero h5 (hpos _ hlt)
    have h8 : s.con_returned = m := by omega
    have h9 : s.pro.last_open = 1 := by omega
    have h10 := hI.core.pro_calls
    rw [PPc.pending_of_last_open h9] at h10
    rw [h8] at h6
    exact ⟨h2, by omega, h8, h6, by omega⟩
  · exfalso
    have h5 := hI.data.ex_eq e h3
    have h6 : s.pro.last_open = 0 := by
      have := hI.core.ex_none
      rw [h3] at this
      simp only [reduceCtorEq, ne_eq, false_iff, not_and_or, not_not] at this
      rcases this with h | h <;> simp [h, PPc.last_open]
    by_cases h7 : s.pro_returned < m
    · exact not_positive_raise h5 (hpos _ h7)
    · have h8 : s.pro_returned = m := by omega
      rw [h8, hz] at h5
      cases h5
  · exfalso
    rw [hcon] at h3
    cases h3

/-- Producer fault: once the driver has left its loop, it holds the worker's exception. -/
theorem exit_of_producer_fault {cfg : Config} {s : State} (hI : Inv cfg s) {K : Nat}
    {e : Fault} (hpos : ∀ k, k < K → (cfg.pro_cb k).positive) (hf : cfg.pro_cb K = .raise e)
    (hcon : ∀ j, cfg.con_cb j = .ret) (hx : s.con.in_loop = false) :
    s.consumer_exception = some e := by
  have hle : s.pro_returned ≤ K := by
    by_contra hlt
    obtain ⟨l, hl⟩ := hI.data.rets K (by omega)
    rw [hf] at hl
    cases hl
  rcases hI.data.exit_reason hx with ⟨h2, h3, h4, h5, h6⟩ | ⟨e2, h2, h3, h4⟩ | ⟨e2, h2, h3, h4⟩
  · exfalso
    exact not_positive_ret_zero h5 (hpos _ (by omega))
  · have h5 := hI.data.ex_eq e2 h3
    by_cases h7 : s.pro_returned < K
    · exact absurd (hpos _ h7) (not_positive_raise h5)
    · have h8 : s.pro_returned = K := by omega
      rw [h8, hf] at h5
      cases h5
      exact h2
  · exfalso
    rw [hcon] at h3
    cases h3

/-- Consumer fault: once consume invocation `J` has begun and the driver has left its
loop, it holds the exception that invocation raised. -/
theorem exit_of_consumer_fault {cfg : Config} {s : State} (hI : Inv cfg s) {J : Nat}
    {e : Fault} (hJ : cfg.con_cb J = .raise e) (hx : s.con.in_loop = false)
    (hlog : J < s.con_log.length) : s.consumer_exception = some e := by
  have hle : s.con_returned ≤ J := by
    by_contra hlt
    have := (hI.data.consumed J (by omega)).1
    rw [hJ] at this
    cases this
  rcases hI.data.exit_reason hx with ⟨h2, h3, h4, h5, h6⟩ | ⟨e2, h2, h3, h4⟩ | ⟨e2, h2, h3, h4⟩
  · omega
  · omega
  · have h8 : s.con_returned = J := by omega
    rw [h8, hJ] at h3
    cases h3
    exact h2

theorem serialLoop_eq {cfg : Config} {m : Nat}
    (hpos : ∀ k, k < m → (cfg.pro_cb k).positive) (hz : cfg.pro_cb m = .ret 0)
    (hcon : ∀ j, cfg.con_cb j = .ret) :
    ∀ fuel k, k ≤ m → m < k + fuel →
      serialLoop cfg fuel k = (List.range' k (m - k)).map (fun j => (cfg.pro_cb j).len) := by
  intro fuel
  induction fuel with
  | zero =>
    intro k h1 h2
    omega
  | succ f ih =>
    intro k h1 h2
    by_cases hk : k = m
    · subst hk
      simp [serialLoop, hz]
    · have hlt : k < m := by omega
      have hp := hpos k hlt
      unfold ProOutcome.positive at hp
      have hm : m - k = (m - (k + 1)) + 1 := by omega
      rw [hm, List.range'_succ, List.map_cons, ← ih (k + 1) (by omega) (by omega)]
      cases hk2 : cfg.pro_cb k with
      | raise e =>
        rw [hk2] at hp
        simp [ProOutcome.len] at hp
      | ret len =>
        rw [hk2] at hp
        simp only [ProOutcome.len] at hp
        simp only [serialLoop, hk2, hcon, ProOutcome.len]
        rw [if_neg (by omega)]

theorem getElem?_range_ite (m n : Nat) :
    (List.range m)[n]? = if n < m then some n else none := by
  split_ifs with h
  · exact List.getElem?_range h
  · exact List.getElem?_eq_none_iff.mpr (by simpa using h)

theorem con_log_eq {cfg : Config} {s : State} (hI : Inv cfg s) {m : Nat}
    (hm : s.con_log.length = m) :
    s.con_log.map (fun e => (e.slot, e.len))
      = (List.range m).map (fun j => (j % cfg.n_buffers, (cfg.pro_cb j).len)) := by
  apply List.ext_getElem?
  intro n
  rw [List.getElem?_map, List.getElem?_map, getElem?_range_ite]
  cases he : s.con_log[n]? with
  | none =>
    have : ¬ n < m := by
      rw [← hm]
      exact Nat.not_lt.mpr (List.getElem?_eq_none_iff.mp he)
    simp [this]
  | some e =>
    have hn : n < m := by
      rw [← hm]
      exact (List.getElem?_eq_some_iff.mp he).1
    obtain ⟨h1, -, h3, -, -⟩ := hI.logs.con_entries n e he
    simp [hn, h1, h3]

theorem cfgStream_pos : ∀ k, k < 3 → (cfgStream.pro_cb k).positive := by
  intro k hk
  interval_cases k <;> decide

theorem cfgProFault_pos : ∀ k, k < 2 → (cfgProFault.pro_cb k).positive := by
  intro k hk
  interval_cases k <;> decide

theorem mod_window {n j k : Nat} (h1 : j < k) (h2 : k % n = j % n) : j + n ≤ k := by
  by_contra h
  exact mod_ne_of_window h1 (by omega) h2.symm

/-- C1. Every interleaving of a run in which consume never raises and produce returns
`m` positive lengths and then 0 ends after a bounded number of steps with `procon`
returned; consume has then been invoked exactly `m` times, invocation `j` (from 0) on
slot `j mod n_buffers` with the length produce invocation `j` returned, after that
produce invocation returned and before any later produce invocation on the same slot
began; the lengths consumed are those of the serial loop. -/
theorem chunks_in_order (cfg : Config) (hN : 1 ≤ cfg.n_buffers) (m : Nat)
    (hpos : ∀ k, k < m → (cfg.pro_cb k).positive) (hz : cfg.pro_cb m = .ret 0)
    (hcon : ∀ j, cfg.con_cb j = .ret) (sched : List Tid) (s : State)
    (h : exec cfg sched (init cfg) = some s) :
    sched.length ≤ stepBound (m + 1) (m + 1) ∧
    (s.con ≠ .returned → ∃ t s', step cfg t s = some s') ∧
    (s.con = .returned →
      s.con_log.length = m ∧ s.con_returned = m ∧
      s.con_log.map (fun e => (e.slot, e.len))
        = (List.range m).map (fun j => (j % cfg.n_buffers, (cfg.pro_cb j).len)) ∧
      s.con_log.map (fun e => e.len) = serialLoop cfg (m + 1) 0) ∧
    (∀ j e, s.con_log[j]? = some e →
      j < m ∧ e.slot = j % cfg.n_buffers ∧ e.buffer = cfg.buffers (j % cfg.n_buffers) ∧
      e.len = (cfg.pro_cb j).len ∧ j < e.pro_returned) ∧
    (∀ j k e, j < k → k % cfg.n_buffers = j % cfg.n_buffers → s.pro_log[k]? = some e →
      j < e.con_returned) := by
  have hI := inv_exec (inv_init cfg) h
  have hend := not_positive_ret_zero hz
  have hb := exec_bounded (calls_bounded_of_stream_end hend) (inv_init cfg) h
  rw [remaining_init] at hb
  refine ⟨by omega, progress hN hI, ?_, ?_, ?_⟩
  · intro hc
    obtain ⟨-, h2, h3, -, -⟩ := exit_of_stream_end hI hpos hz hcon (by rw [hc]; rfl)
    refine ⟨h2, h3, con_log_eq hI h2, ?_⟩
    rw [serialLoop_eq hpos hz hcon (m + 1) 0 (by omega) (by omega)]
    apply List.ext_getElem?
    intro n
    have h4 := congrArg (fun l => (l.map Prod.snd)[n]?) (con_log_eq hI h2)
    simp only [List.map_map] at h4
    simpa [List.range_eq_range'] using h4
  · intro j e he
    obtain ⟨h1, h2, h3, -, h5⟩ := hI.logs.con_entries j e he
    have h6 := con_log_le hI hend
    have h7 := (List.getElem?_eq_some_iff.mp he).1
    exact ⟨by omega, h1, h2, h3, h5⟩
  · intro j k e hjk hmod he
    obtain ⟨-, -, -, h4⟩ := hI.logs.pro_entries k e he
    have := mod_window hjk hmod
    omega

theorem PPc.pending_le_one (p : PPc) : p.pending ≤ 1 := by
  cases p <;> simp [PPc.pending]

/-- C2. Every interleaving of a run in which consume never raises and produce raises
fault `e` after `K` invocations that returned positive lengths ends after a bounded
number of steps with `procon` returned; what it surfaces is `e`; consume is invoked at
most `K` times, invocation `j` on the slot and with the length of the successful
produce invocation `j`, never for the faulting invocation `K`; and every consume
invocation on the slot of the faulting invocation had returned before that invocation
began. -/
theorem producer_fault_surfaces (cfg : Config) (hN : 1 ≤ cfg.n_buffers) (K : Nat) (e : Fault)
    (hpos : ∀ k, k < K → (cfg.pro_cb k).positive) (hf : cfg.pro_cb K = .raise e)
    (hcon : ∀ j, cfg.con_cb j = .ret) (sched : List Tid) (s : State)
    (h : exec cfg sched (init cfg) = some s) :
    sched.length ≤ stepBound (K + 1) (K + 1) ∧
    (s.con ≠ .returned → ∃ t s', step cfg t s = some s') ∧
    (s.con = .returned → surfaced s = some e) ∧
    s.con_log.length ≤ K ∧ s.pro_log.length ≤ K + 1 ∧
    (∀ j c, s.con_log[j]? = some c →
      j < K ∧ c.slot = j % cfg.n_buffers ∧ c.buffer = cfg.buffers (j % cfg.n_buffers) ∧
      c.len = (cfg.pro_cb j).len ∧ 0 < c.len ∧ j < c.pro_returned) ∧
    (∀ j p, j < K → K % cfg.n_buffers = j % cfg.n_buffers → s.pro_log[K]? = some p →
      j < p.con_returned) := by
  have hI := inv_exec (inv_init cfg) h
  have hend := not_positive_raise hf
  have hb := exec_bounded (calls_bounded_of_stream_end hend) (inv_init cfg) h
  rw [remaining_init] at hb
  have hlog := con_log_le hI hend
  have hle : s.pro_returned ≤ K := by
    by_contra hlt
    obtain ⟨l, hl⟩ := hI.data.rets K (by omega)
    rw [hf] at hl
    cases hl
  have hcalls := hI.core.pro_calls
  have hpend := PPc.pending_le_one s.pro
  refine ⟨by omega, progress hN hI, ?_, hlog, by omega, ?_, ?_⟩
  · intro hc
    exact exit_of_producer_fault hI hpos hf hcon (by rw [hc]; rfl)
  · intro j c hc
    obtain ⟨h1, h2, h3, h4, h5⟩ := hI.logs.con_entries j c hc
    have h7 := (List.getElem?_eq_some_iff.mp hc).1
    exact ⟨by omega, h1, h2, h3, h4, h5⟩
  · intro j p hjK hmod hp
    obtain ⟨-, -, -, h4⟩ := hI.logs.pro_entries K p hp
    have := mod_window hjK hmod
    omega

/-- C3. Every interleaving of a run in which consume invocation `J` raises fault `e`
ends after a bounded number of steps with `procon` returned; once that invocation has
begun, what `procon` surfaces is `e`, whatever the worker has stored in `ex_ptr`. -/
theorem consumer_fault_surfaces (cfg : Config) (hN : 1 ≤ cfg.n_buffers) (J : Nat) (e : Fault)
    (hJ : cfg.con_cb J = .raise e) (sched : List Tid) (s : State)
    (h : exec cfg sched (init cfg) = some s) :
    sched.length ≤ stepBound (cfg.n_buffers + J) (J + 1) ∧
    (s.con ≠ .returned → ∃ t s', step cfg t s = some s') ∧
    (J < s.con_log.length → s.con = .returned →
      surfaced s = some e ∧ ∀ e', s.ex_ptr = some e' → e' ≠ e → surfaced s ≠ some e') := by
  have hI := inv_exec (inv_init cfg) h
  have hb := exec_bounded (calls_bounded_of_consumer_fault hJ) (inv_init cfg) h
  rw [remaining_init] at hb
  refine ⟨by omega, progress hN hI, ?_⟩
  intro hlog hc
  have hs : surfaced s = some e :=
    exit_of_consumer_fault hI hJ (by rw [hc]; rfl) hlog
  refine ⟨hs, ?_⟩
  intro e' _ hne hs'
  rw [hs] at hs'
  cases hs'
  exact hne rfl

/-- C6. Consume is never invoked with length 0.  Every interleaving of a run in which
no callback raises and produce returns 0 after `m` positive lengths ends after a bounded
number of steps with `procon` returned and nothing surfaced; the driver leaves its loop
on slot `m mod n_buffers` after `m` consume invocations and `m + 1` produce invocations,
also when `m` is at least `n_buffers`. -/
theorem eof_terminates (cfg : Config) (hN : 1 ≤ cfg.n_buffers) (sched : List Tid) (s : State)
    (h : exec cfg sched (init cfg) = some s) :
    (∀ (j : Nat) (c : ConCall), s.con_log[j]? = some c → c.len ≠ 0) ∧
    (∀ m, (∀ k, k < m → (cfg.pro_cb k).positive) → cfg.pro_cb m = .ret 0 →
      (∀ j, cfg.con_cb j = .ret) →
      sched.length ≤ stepBound (m + 1) (m + 1) ∧
      (s.con ≠ .returned → ∃ t s', step cfg t s = some s') ∧
      (s.con.in_loop = false →
        s.consumer_buffer_idx = m % cfg.n_buffers ∧ s.con_log.length = m ∧
        s.pro_log.length = m + 1) ∧
      (s.con = .returned → surfaced s = none)) := by
  have hI := inv_exec (inv_init cfg) h
  refine ⟨?_, ?_⟩
  · intro j c hc
    obtain ⟨-, -, -, h4, -⟩ := hI.logs.con_entries j c hc
    omega
  · intro m hpos hz hcon
    have hend := not_positive_ret_zero hz
    have hb := exec_bounded (calls_bounded_of_stream_end hend) (inv_init cfg) h
    rw [remaining_init] at hb
    refine ⟨by omega, progress hN hI, ?_, ?_⟩
    · intro hx
      obtain ⟨-, h2, -, h4, h5⟩ := exit_of_stream_end hI hpos hz hcon hx
      exact ⟨h4, h2, h5⟩
    · intro hc
      exact (exit_of_stream_end hI hpos hz hcon (by rw [hc]; rfl)).1

/-- C10. In the run of `cfgFault` the worker has returned at line 84 after produce
raised on its first invocation, and `producer_done` is still false. -/
theorem producer_done_unset_after_fault :
    (exec cfgFault schedFault (init cfgFault)).isSome = true ∧
    (run cfgFault schedFault).pro = .ret_fault ∧
    (run cfgFault schedFault).ex_ptr = some 1 ∧
    (run cfgFault schedFault).producer_done = false := by
  decide

/-- The fault path of the worker never sets `producer_done`; the two other paths do,
and no step resets the flag. -/
theorem producer_done_paths (cfg : Config) (s : State) (hr : Reachable cfg s) :
    (s.pro = .ret_fault → s.producer_done = false) ∧
    (s.pro = .ret_eof → s.producer_done = true) ∧
    (s.pro = .ret_stop → s.producer_done = true) ∧
    (s.producer_done = true → ∀ t s', step cfg t s = some s' → s'.producer_done = true) := by
  have hI := inv_reachable hr
  have hd := hI.core.done_iff
  refine ⟨?_, ?_, ?_, ?_⟩
  · intro hp
    cases hb : s.producer_done
    · rfl
    · rw [hb] at hd
      rcases hd.mp rfl with h | h | h <;> rw [hp] at h <;> cases h
  · intro hp
    exact hd.mpr (Or.inr (Or.inr hp))
  · intro hp
    exact hd.mpr (Or.inl hp)
  · intro hb t s' hs
    have hd' := (inv_reachable (reachable_step hr hs)).core.done_iff
    rw [hd']
    rcases hd.mp hb with hp | hp | hp
    · cases t
      · simp [step, stepProducer, hp] at hs
      · left
        simp only [step] at hs
        cases hc : s.con <;> simp only [stepConsumer, hc] at hs
        all_goals (try split at hs)
        all_goals (first | cases hs | skip)
        all_goals exact hp
    · cases t
      · simp only [step, stepProducer, hp, Option.some.injEq] at hs
        subst hs
        simp
      · right; left
        simp only [step] at hs
        cases hc : s.con <;> simp only [stepConsumer, hc] at hs
        all_goals (try split at hs)
        all_goals (first | cases hs | skip)
        all_goals exact hp
    · cases t
      · simp [step, stepProducer, hp] at hs
      · right; right
        simp only [step] at hs
        cases hc : s.con <;> simp only [stepConsumer, hc] at hs
        all_goals (try split at hs)
        all_goals (first | cases hs | skip)
        all_goals exact hp

theorem exec_getD {cfg : Config} {sched : List Tid} {s d : State}
    (h : (exec cfg sched s).isSome = true) :
    exec cfg sched s = some ((exec cfg sched s).getD d) := by
  cases hx : exec cfg sched s with
  | none => simp [hx] at h
  | some a => rfl

/-- Concrete instance: the complete run of `cfgStream`. -/
theorem chunks_in_order_witness :
    (run cfgStream schedStream).con = .returned ∧
    (run cfgStream schedStream).con_log.map (fun e => (e.slot, e.len))
      = [(0, 1), (1, 2), (0, 3)] ∧
    (run cfgStream schedStream).con_log.map (fun e => e.len) = serialLoop cfgStream 4 0 :=
  have h := chunks_in_order cfgStream (by decide) 3 cfgStream_pos rfl (fun _ => rfl)
    schedStream (run cfgStream schedStream) (exec_run (by decide))
  ⟨by decide, (h.2.2.1 (by decide)).2.2.1.trans (by decide), (h.2.2.1 (by decide)).2.2.2⟩

/-- Concrete instance: the complete run of `cfgProFault`. -/
theorem producer_fault_surfaces_witness :
    (run cfgProFault schedProFault).con = .returned ∧
    surfaced (run cfgProFault schedProFault) = some 9 ∧
    (run cfgProFault schedProFault).con_log.length ≤ 2 :=
  have h := producer_fault_surfaces cfgProFault (by decide) 2 9 cfgProFault_pos rfl
    (fun _ => rfl) schedProFault (run cfgProFault schedProFault) (exec_run (by decide))
  ⟨by decide, h.2.2.1 (by decide), h.2.2.2.1⟩

/-- Concrete instance: the complete run of `cfgBoth`, in which both callbacks raise. -/
theorem consumer_fault_surfaces_witness :
    (run cfgBoth schedBoth).con = .returned ∧
    (run cfgBoth schedBoth).ex_ptr = some 9 ∧
    surfaced (run cfgBoth schedBoth) = some 7 ∧
    surfaced (run cfgBoth schedBoth) ≠ some 9 :=
  have h := consumer_fault_surfaces cfgBoth (by decide) 0 7 rfl schedBoth
    (run cfgBoth schedBoth) (exec_run (by decide))
  ⟨by decide, by decide, (h.2.2 (by decide) (by decide)).1,
    (h.2.2 (by decide) (by decide)).2 9 (by decide) (by decide)⟩

/-- Concrete instance: the worker of `cfgBlocked` is blocked when finalization begins and
returns at line 74 without another produce invocation. -/
theorem no_deadlock_witness :
    (run cfgBlocked schedBlocked).con = .set_stop ∧
    (run cfgBlocked schedBlocked).pro = .acquire ∧
    (run cfgBlocked schedBlocked).n_empty_sem = 0 ∧
    finalBlocked.con = .returned ∧
    finalBlocked.pro_log = (run cfgBlocked schedBlocked).pro_log ∧
    finalBlocked.pro = .ret_stop :=
  have h := (no_deadlock cfgBlocked (by decide) (run cfgBlocked schedBlocked)
    (reachable_run (by decide))).2.2 (by decide) (by decide) (by decide)
    schedWindDown finalBlocked (exec_getD (by decide))
  ⟨by decide, by decide, by decide, by decide, h.1, h.2.2.1 (by decide)⟩

/-- Concrete instance: the complete run of `cfgStream`. -/
theorem buffer_identity_witness :
    (run cfgStream schedStream).buffers = cfgStream.buffers ∧
    (run cfgStream schedStream).pro_log.map (fun e => e.buffer) = [100, 101, 100, 101] :=
  ⟨(buffer_identity cfgStream (by decide) (run cfgStream schedStream)
    (reachable_run (by decide))).1, by decide⟩

/-- Concrete instance: the complete run of `cfgStream`, where the 0 goes to a slot that held
length 2 before. -/
theorem eof_terminates_witness :
    (run cfgStream schedStream).con = .returned ∧
    surfaced (run cfgStream schedStream) = none ∧
    (run cfgStream schedStream).consumer_buffer_idx = 1 ∧
    (run cfgStream schedStream).con_log.length = 3 ∧
    (run cfgStream schedStream).pro_log.length = 4 :=
  have h := (eof_terminates cfgStream (by decide) schedStream (run cfgStream schedStream)
    (exec_run (by decide))).2 3 cfgStream_pos rfl (fun _ => rfl)
  ⟨by decide, h.2.2.2 (by decide), (h.2.2.1 (by decide)).1, (h.2.2.1 (by decide)).2.1,
    (h.2.2.1 (by decide)).2.2⟩

/-- Concrete instance: the worker inside produce on slot 1, the driver inside consume on
slot 0. -/
theorem slot_exclusive_witness :
    proSlot (run cfgStream schedOverlap) = some 1 ∧
    conSlot (run cfgStream schedOverlap) = some 0 ∧
    ¬ (proSlot (run cfgStream schedOverlap) = some 0 ∧
      conSlot (run cfgStream schedOverlap) = some 0) :=
  ⟨by decide, by decide,
    (slot_exclusive cfgStream (run cfgStream schedOverlap) (reachable_run (by decide))).1 0⟩

/-- Concrete instance: the state after finalization in the run of `cfgProFault`. -/
theorem semaphore_bounds_witness :
    (run cfgProFault schedProFault).n_empty_sem = 1 ∧
    (run cfgProFault schedProFault).n_empty_sem ≤ cfgProFault.n_buffers ∧
    (run cfgProFault schedProFault).n_filled_sem ≤ cfgProFault.n_buffers :=
  have h := semaphore_bounds cfgProFault (run cfgProFault schedProFault)
    (reachable_run (by decide))
  ⟨by decide, h.2.2.1, h.2.2.2.1⟩

/-- Concrete instance: the run of `cfgBlocked` at the start of finalization, four produce
invocations begun and three consume invocations returned. -/
theorem in_flight_bound_witness :
    (run cfgBlocked schedBlocked).pro_log.length = 4 ∧
    (run cfgBlocked schedBlocked).con_returned = 3 ∧
    (run cfgBlocked schedBlocked).pro_log.length
      ≤ cfgBlocked.n_buffers + (run cfgBlocked schedBlocked).con_returned :=
  ⟨by decide, by decide,
    (in_flight_bound cfgBlocked (run cfgBlocked schedBlocked) (reachable_run (by decide))).1⟩

end Procon
